import Mathlib

/-!
Shallow embedding of the audio streaming / playback scheduling / transcript
aggregation core of the kaitalk client (src/index.tsx), together with proofs
of the specified properties.

Conventions of the embedding:
* JS numbers that carry audio times are modelled as rationals (every value the
  program computes on them here is produced by exact binary-float operations:
  scaling by powers of two, truncation, addition of decoded durations).
* Byte arrays are `List Nat` with entries < 256; strings are Lean `String`.
* Fallible operations (`atob` throwing on malformed base64, building an
  `Int16Array` over an odd-length buffer) return `Option`.
-/

namespace Roast

/-! ### Base64: model of the browser primitives `btoa` / `atob`
used by `encode` (src/index.tsx lines 7-14) and `decode` (lines 16-24).
`atob` implements WHATWG forgiving-base64 decoding: strip ASCII whitespace,
strip up to two trailing `=` when the length is a multiple of 4, fail when the
remaining length is 1 mod 4 or a character is outside the alphabet. -/

def isB64Ws (c : Char) : Bool :=
  c == ' ' || c == '\t' || c == '\n' || c == '\x0c' || c == '\r'

def b64char (s : Nat) : Char :=
  if s < 26 then Char.ofNat (65 + s)
  else if s < 52 then Char.ofNat (71 + s)
  else if s < 62 then Char.ofNat (s - 4)
  else if s = 62 then '+'
  else '/'

def b64index (c : Char) : Option Nat :=
  if 65 ≤ c.toNat ∧ c.toNat ≤ 90 then some (c.toNat - 65)
  else if 97 ≤ c.toNat ∧ c.toNat ≤ 122 then some (c.toNat - 71)
  else if 48 ≤ c.toNat ∧ c.toNat ≤ 57 then some (c.toNat + 4)
  else if c = '+' then some 62
  else if c = '/' then some 63
  else none

/-- Bytes to base64 sextet stream (three bytes become four sextets). -/
def toSextets : List Nat → List Nat
  | [] => []
  | [b1] => [b1 / 4, b1 % 4 * 16]
  | [b1, b2] => [b1 / 4, b1 % 4 * 16 + b2 / 16, b2 % 16 * 4]
  | b1 :: b2 :: b3 :: r =>
      b1 / 4 :: (b1 % 4 * 16 + b2 / 16) :: (b2 % 16 * 4 + b3 / 64) :: b3 % 64 :: toSextets r

/-- Sextet stream back to bytes (forgiving: a trailing group of two or three
sextets yields one or two bytes, leftover bits discarded). -/
def fromSextets : List Nat → List Nat
  | s1 :: s2 :: s3 :: s4 :: r =>
      (s1 * 4 + s2 / 16) :: (s2 % 16 * 16 + s3 / 4) :: (s3 % 4 * 64 + s4) :: fromSextets r
  | [s1, s2, s3] => [s1 * 4 + s2 / 16, s2 % 16 * 16 + s3 / 4]
  | [s1, s2] => [s1 * 4 + s2 / 16]
  | _ => []

/-- Padding characters `btoa` appends for the final partial group. -/
def padChars (l : List Nat) : List Char :=
  if l.length % 3 = 1 then ['=', '=']
  else if l.length % 3 = 2 then ['=']
  else []

/-- src/index.tsx lines 7-14: bytes → binary string → `btoa`. -/
def encode (l : List Nat) : String :=
  String.mk ((toSextets l).map b64char ++ padChars l)

/-- Remove one trailing `=` when present. -/
def stripPad1 (cs : List Char) : List Char :=
  if cs.getLast? = some '=' then cs.dropLast else cs

/-- Remove up to two trailing `=` (step 2 of forgiving-base64). -/
def stripPad (cs : List Char) : List Char :=
  stripPad1 (stripPad1 cs)

/-- Map every character to its sextet, failing on any character outside the
base64 alphabet (this is where `atob` rejects stray `=` and garbage). -/
def sextetsOf : List Char → Option (List Nat)
  | [] => some []
  | c :: r =>
      match b64index c, sextetsOf r with
      | some s, some rest => some (s :: rest)
      | _, _ => none

/-- src/index.tsx lines 16-24: `atob` then `charCodeAt` of every position.
`none` models the `InvalidCharacterError` `atob` throws on malformed input. -/
def decode (s : String) : Option (List Nat) :=
  let cs0 := s.data.filter (fun c => !(isB64Ws c))
  let cs := if cs0.length % 4 = 0 then stripPad cs0 else cs0
  if cs.length % 4 = 1 then none
  else
    match sextetsOf cs with
    | none => none
    | some sx => some (fromSextets sx)

/-! ### PCM16 conversion -/

/-- JS ToIntegerOrInfinity: truncation of a real number toward zero. -/
def jsTrunc (x : ℚ) : ℤ :=
  if 0 ≤ x then ⌊x⌋ else ⌈x⌉

/-- JS ToInt16 as performed by an `Int16Array` element store:
truncate toward zero, wrap modulo 2^16 into [-32768, 32767]. -/
def jsToInt16 (x : ℚ) : ℤ :=
  if 32768 ≤ jsTrunc x % 65536 then jsTrunc x % 65536 - 65536 else jsTrunc x % 65536

/-- Little-endian byte serialization of an `Int16Array`'s buffer. -/
def int16sToBytes : List ℤ → List Nat
  | [] => []
  | v :: r =>
      let u := (v % 65536).toNat
      u % 256 :: u / 256 :: int16sToBytes r

/-- Reading a byte buffer as an `Int16Array` (little-endian, signed). -/
def bytesToInt16s : List Nat → List ℤ
  | b1 :: b2 :: r =>
      (if b1 + 256 * b2 < 32768 then ((b1 + 256 * b2 : Nat) : ℤ)
       else (b1 + 256 * b2 : Nat) - 65536) :: bytesToInt16s r
  | _ => []

/-- The wire Blob produced by the capture encoder. -/
structure Blob where
  data : String
  mimeType : String
deriving DecidableEq

/-- src/index.tsx lines 45-55: scale each float sample by 32768, store into an
`Int16Array` (JS ToInt16 conversion), serialize its buffer, base64-encode. -/
def createBlob (samples : List ℚ) : Blob :=
  { data := encode (int16sToBytes (samples.map fun x => jsToInt16 (x * 32768)))
    mimeType := "audio/pcm;rate=16000" }

/-- src/index.tsx lines 26-43, specialized to the only call site
(line 154: `decodeAudioData(decode(base64Audio), ctx, 24000, 1)`, mono):
reinterpret the byte buffer as `Int16Array` and divide each sample by 32768.
`none` models the RangeError thrown by `new Int16Array(buffer)` when the
buffer's byte length is odd. -/
def decodeAudioData (data : List Nat) : Option (List ℚ) :=
  if data.length % 2 = 0 then
    some ((bytesToInt16s data).map (fun v : ℤ => (v : ℚ) / 32768))
  else none

/-- The inbound audio decode path of `onmessage` (line 154):
`decodeAudioData (decode base64Audio)`. -/
def inboundSamples (b64 : String) : Option (List ℚ) :=
  match decode b64 with
  | none => none
  | some bytes => decodeAudioData bytes

/-! ### Application state (the React refs of the `App` component) -/

inductive Speaker where
  | user
  | ai
deriving DecidableEq

/-- `type Transcript = { speaker: 'user' | 'ai'; text: string }` (line 60). -/
structure Transcript where
  speaker : Speaker
  text : String
deriving DecidableEq

/-- A scheduled `AudioBufferSourceNode`: its start time and buffer duration. -/
structure SUnit where
  start : ℚ
  dur : ℚ
deriving DecidableEq

/-- The mutable refs of the component (lines 63-80): transcripts and the two
accumulation buffers, the resource handles, the output clock cursor
`nextStartTimeRef` and the live source set `sourcesRef`. -/
structure AppState where
  isSessionActive : Bool
  transcripts : List Transcript
  currentInput : String
  currentOutput : String
  sessionPromise : Option Unit
  mediaStream : Option Unit
  inputAudioContext : Option Unit
  outputAudioContext : Option Unit
  scriptProcessor : Option Unit
  mediaStreamSource : Option Unit
  nextStartTime : ℚ
  sources : List SUnit
deriving DecidableEq

/-- The inbound server message, restricted to the fields `onmessage` reads. -/
structure LiveServerMessage where
  outputTranscription : Option String
  inputTranscription : Option String
  turnComplete : Bool
  audioData : Option String
  interrupted : Bool
deriving DecidableEq

/-- Transcript update shared by both transcription branches (lines 125-131 and
135-141): if the last entry's speaker matches, replace it in place with the
updated accumulation buffer, otherwise append a new entry. -/
def coalesce (sp : Speaker) (txt : String) (ts : List Transcript) : List Transcript :=
  match ts.getLast? with
  | some last => if last.speaker = sp then ts.dropLast ++ [⟨sp, txt⟩] else ts ++ [⟨sp, txt⟩]
  | none => ts ++ [⟨sp, txt⟩]

/-- Lines 122-142: `if (outputTranscription) ... else if (inputTranscription)`. -/
def transcriptionPhase (msg : LiveServerMessage) (st : AppState) : AppState :=
  match msg.outputTranscription with
  | some text =>
      { st with currentOutput := st.currentOutput ++ text
                transcripts := coalesce Speaker.ai (st.currentOutput ++ text) st.transcripts }
  | none =>
      match msg.inputTranscription with
      | some text =>
          { st with currentInput := st.currentInput ++ text
                    transcripts := coalesce Speaker.user (st.currentInput ++ text) st.transcripts }
      | none => st

/-- Lines 144-147: a turn-complete flag resets both accumulation buffers. -/
def turnCompletePhase (msg : LiveServerMessage) (st : AppState) : AppState :=
  if msg.turnComplete then { st with currentInput := "", currentOutput := "" } else st

/-- Lines 165-171: on the interrupted flag, stop every live source, clear the
set, reset the cursor. The second component lists the sources stopped. -/
def interruptedPhase (msg : LiveServerMessage) (st : AppState) : AppState × List SUnit :=
  if msg.interrupted then
    ({ st with nextStartTime := 0, sources := [] }, st.sources)
  else (st, [])

/-- Lines 152-162 on a successfully decoded buffer of duration `dur`:
clamp the cursor to `max(cursor, now)`, start a source at the clamped cursor,
advance the cursor by the buffer duration, add the source to the live set. -/
def audioStep (now dur : ℚ) (st : AppState) : AppState :=
  let start := max st.nextStartTime now
  { st with nextStartTime := start + dur
            sources := ⟨start, dur⟩ :: st.sources }

/-- The transcription and turn-complete phases that every message goes
through before the audio and interrupted blocks (lines 122-147). -/
def prePhases (msg : LiveServerMessage) (st : AppState) : AppState :=
  turnCompletePhase msg (transcriptionPhase msg st)

/-- Lines 121-172: one inbound message processed at output-clock time `now`.
Returns the new state and the list of sources stopped by the interrupted
branch. The audio block runs only when `base64Audio` is truthy (nonempty) and
the output context exists (line 150); the cursor clamp (line 152) precedes the
decode (line 154), so on a decode failure the clamp has already happened and
the exception skips the rest of the handler, including the interrupted
branch. -/
def onmessage (msg : LiveServerMessage) (now : ℚ) (st : AppState) : AppState × List SUnit :=
  match msg.audioData with
  | none => interruptedPhase msg (prePhases msg st)
  | some b64 =>
      if b64 ≠ "" ∧ (prePhases msg st).outputAudioContext.isSome then
        match inboundSamples b64 with
        | none =>
            ({ prePhases msg st with
                nextStartTime := max (prePhases msg st).nextStartTime now }, [])
        | some smp =>
            interruptedPhase msg (audioStep now ((smp.length : ℚ) / 24000) (prePhases msg st))
      else interruptedPhase msg (prePhases msg st)

/-- Line 159: the `ended` listener deletes the source from the live set. -/
def onEnded (u : SUnit) (st : AppState) : AppState :=
  { st with sources := st.sources.erase u }

/-- Lines 82-96, the synchronous part of `startSession`: clear transcripts and
buffers, create the output context, reset the cursor, clear the live set,
store the session promise. -/
def startSession (st : AppState) : AppState :=
  { st with transcripts := []
            currentInput := ""
            currentOutput := ""
            outputAudioContext := some ()
            nextStartTime := 0
            sources := []
            sessionPromise := some () }

/-- The resource handles `stopSession` actually releases from state `st`
(each guarded by optional chaining in lines 202-220). -/
def releasedHandles (st : AppState) : List String :=
  (if st.sessionPromise.isSome then ["session"] else []) ++
  (if st.mediaStream.isSome then ["mediaStream"] else []) ++
  (if st.scriptProcessor.isSome then ["scriptProcessor"] else []) ++
  (if st.mediaStreamSource.isSome then ["mediaStreamSource"] else []) ++
  (if st.inputAudioContext.isSome then ["inputAudioContext"] else []) ++
  (if st.outputAudioContext.isSome then ["outputAudioContext"] else [])

/-- Lines 199-227: guard on `!isSessionActive && !sessionPromiseRef.current`,
then null out every handle, stop and clear the live sources, set inactive.
The cursor `nextStartTimeRef` is NOT touched. Returns the released handle
names and the stopped sources. -/
def stopSession (st : AppState) : AppState × (List String × List SUnit) :=
  if !st.isSessionActive && st.sessionPromise.isNone then (st, ([], []))
  else
    ({ st with isSessionActive := false
               sessionPromise := none
               mediaStream := none
               scriptProcessor := none
               mediaStreamSource := none
               inputAudioContext := none
               outputAudioContext := none
               sources := [] },
     (releasedHandles st, st.sources))

/-! ### Derived runners used to state trace properties -/

/-- Process a list of messages, each paired with the clock time at which it is
handled. -/
def runMsgs : List (LiveServerMessage × ℚ) → AppState → AppState
  | [], st => st
  | (msg, now) :: r, st => runMsgs r (onmessage msg now st).1

/-- Process a list of successfully decoded audio deltas, each given as
(clock time at processing, decoded buffer duration). -/
def runAudio : List (ℚ × ℚ) → AppState → AppState
  | [], st => st
  | (now, dur) :: r, st => runAudio r (audioStep now dur st)

/-- The clock-drift assumption of the gapless-ordering property: each message
is processed while the clock has not passed the accumulated duration. -/
def nowsOk (c : ℚ) : List (ℚ × ℚ) → Prop
  | [] => True
  | p :: r => p.1 ≤ c ∧ nowsOk (c + p.2) r

/-- The units scheduled back to back from cursor position `c`. -/
def unitsFrom (c : ℚ) : List ℚ → List SUnit
  | [] => []
  | d :: ds => ⟨c, d⟩ :: unitsFrom (c + d) ds

/-- Two playback units do not overlap in time. -/
def NoOverlap (u v : SUnit) : Prop :=
  u.start + u.dur ≤ v.start ∨ v.start + v.dur ≤ u.start

/-- Pure interrupted (barge-in) message. -/
def interruptedMsg : LiveServerMessage :=
  { outputTranscription := none, inputTranscription := none
    turnComplete := false, audioData := none, interrupted := true }

/-- Pure audio-delta message. -/
def audioMsg (b64 : String) : LiveServerMessage :=
  { outputTranscription := none, inputTranscription := none
    turnComplete := false, audioData := some b64, interrupted := false }

/-- Pure user transcription fragment. -/
def inMsg (t : String) : LiveServerMessage :=
  { outputTranscription := none, inputTranscription := some t
    turnComplete := false, audioData := none, interrupted := false }

/-- Pure agent (ai) transcription fragment. -/
def outMsg (t : String) : LiveServerMessage :=
  { outputTranscription := some t, inputTranscription := none
    turnComplete := false, audioData := none, interrupted := false }

/-- A pure transcription fragment tagged with either speaker. -/
def fragMsg : Speaker → String → LiveServerMessage
  | Speaker.user, t => inMsg t
  | Speaker.ai, t => outMsg t

/-- The per-speaker accumulation buffer the transcription branches use:
`currentInputRef` for the user (line 134), `currentOutputRef` for the
agent (line 124). -/
def accBuffer : Speaker → AppState → String
  | Speaker.user, st => st.currentInput
  | Speaker.ai, st => st.currentOutput

/-- Pure turn-complete message. -/
def tcMsg : LiveServerMessage :=
  { outputTranscription := none, inputTranscription := none
    turnComplete := true, audioData := none, interrupted := false }

/-- A fully idle state: fresh component, nothing scheduled. -/
def stIdle : AppState :=
  { isSessionActive := false, transcripts := [], currentInput := ""
    currentOutput := "", sessionPromise := none, mediaStream := none
    inputAudioContext := none, outputAudioContext := none
    scriptProcessor := none, mediaStreamSource := none
    nextStartTime := 0, sources := [] }

/-- An active mid-session state with one live source and a nonzero cursor. -/
def stActive : AppState :=
  { isSessionActive := true, transcripts := [], currentInput := ""
    currentOutput := "", sessionPromise := some (), mediaStream := some ()
    inputAudioContext := some (), outputAudioContext := some ()
    scriptProcessor := some (), mediaStreamSource := some ()
    nextStartTime := 5, sources := [⟨2, 3⟩] }

/-- A mid-conversation state with a stale user accumulation buffer: reached
from a fresh session by a user fragment "X" (transcript [(user,"X")],
buffer "X") followed by an ai fragment "hi" with no turn-complete. For the
counterexample only its buffer and transcript matter, so the other fields are
taken from `stIdle`. -/
def stStale : AppState :=
  { stIdle with currentInput := "X"
                currentOutput := "hi"
                transcripts := [⟨Speaker.user, "X"⟩, ⟨Speaker.ai, "hi"⟩] }

/-- A state whose last transcript entry is the agent's, mid-utterance. -/
def stAi : AppState :=
  { stIdle with currentOutput := "Good"
                transcripts := [⟨Speaker.ai, "Good"⟩] }

/-- Speakers of consecutive transcript entries always differ. -/
def altSpeakers (ts : List Transcript) : Prop :=
  List.Chain' (fun a b => a.speaker ≠ b.speaker) ts

end Roast

namespace Roast

theorem toSextets_lt (l : List Nat) (h : ∀ b ∈ l, b < 256) :
    ∀ s ∈ toSextets l, s < 64 := by
  induction l using toSextets.induct with
  | case1 => simp [toSextets]
  | case2 b1 =>
      simp only [toSextets, List.mem_cons, List.not_mem_nil, or_false]
      have := h b1 (by simp)
      rintro s (rfl | rfl) <;> omega
  | case3 b1 b2 =>
      simp only [toSextets, List.mem_cons, List.not_mem_nil, or_false]
      have h1 := h b1 (by simp)
      have h2 := h b2 (by simp)
      rintro s (rfl | rfl | rfl) <;> omega
  | case4 b1 b2 b3 r ih =>
      simp only [toSextets, List.mem_cons]
      have h1 := h b1 (by simp)
      have h2 := h b2 (by simp)
      have h3 := h b3 (by simp)
      rintro s (rfl | rfl | rfl | rfl | hs)
      · omega
      · omega
      · omega
      · omega
      · exact ih (fun b hb => h b (by simp [hb])) s hs

theorem fromSextets_toSextets (l : List Nat) (h : ∀ b ∈ l, b < 256) :
    fromSextets (toSextets l) = l := by
  induction l using toSextets.induct with
  | case1 => simp [toSextets, fromSextets]
  | case2 b1 =>
      have h1 := h b1 (by simp)
      simp only [toSextets, fromSextets, List.cons.injEq, and_true]
      omega
  | case3 b1 b2 =>
      have h1 := h b1 (by simp)
      have h2 := h b2 (by simp)
      simp only [toSextets, fromSextets, List.cons.injEq, and_true]
      omega
  | case4 b1 b2 b3 r ih =>
      have h1 := h b1 (by simp)
      have h2 := h b2 (by simp)
      have h3 := h b3 (by simp)
      have hr := ih (fun b hb => h b (by simp [hb]))
      simp only [toSextets, fromSextets, List.cons.injEq]
      refine ⟨by omega, by omega, by omega, hr⟩

theorem toSextets_length_mod (l : List Nat) :
    ((toSextets l).length + (padChars l).length) % 4 = 0 ∧ (toSextets l).length % 4 ≠ 1 := by
  induction l using toSextets.induct with
  | case1 => simp [toSextets, padChars]
  | case2 b1 => simp [toSextets, padChars]
  | case3 b1 b2 => simp [toSextets, padChars]
  | case4 b1 b2 b3 r ih =>
      have hp : padChars (b1 :: b2 :: b3 :: r) = padChars r := by
        simp only [padChars, List.length_cons]
        have h3 : (r.length + 1 + 1 + 1) % 3 = r.length % 3 := by omega
        simp only [h3]
      simp only [toSextets, List.length_cons, hp]
      omega

theorem b64index_b64char : ∀ s, s < 64 → b64index (b64char s) = some s := by decide

theorem b64char_not_ws : ∀ s, s < 64 → isB64Ws (b64char s) = false := by decide

theorem b64char_ne_pad : ∀ s, s < 64 → b64char s ≠ '=' := by decide

theorem sextetsOf_map (sx : List Nat) (h : ∀ s ∈ sx, s < 64) :
    sextetsOf (sx.map b64char) = some sx := by
  induction sx with
  | nil => simp [sextetsOf]
  | cons a r ih =>
      have ha := h a (by simp)
      simp only [List.map_cons, sextetsOf, b64index_b64char a ha,
        ih (fun s hs => h s (by simp [hs]))]

theorem stripPad1_no_pad (body : List Char) (hb : body.getLast? ≠ some '=') :
    stripPad1 body = body := by
  simp only [stripPad1, if_neg hb]

theorem stripPad1_pad (body : List Char) :
    stripPad1 (body ++ ['=']) = body := by
  simp [stripPad1, List.getLast?_concat]

theorem stripPad_append (body : List Char) (p : Nat) (hp : p ≤ 2)
    (hb : body.getLast? ≠ some '=') :
    stripPad (body ++ List.replicate p '=') = body := by
  interval_cases p
  · simp only [List.replicate_zero, List.append_nil, stripPad]
    rw [stripPad1_no_pad body hb, stripPad1_no_pad body hb]
  · show stripPad (body ++ ['=']) = body
    simp only [stripPad]
    rw [stripPad1_pad, stripPad1_no_pad body hb]
  · show stripPad (body ++ ['=', '=']) = body
    have h2 : body ++ ['=', '='] = (body ++ ['=']) ++ ['='] := by simp
    simp only [stripPad, h2]
    rw [stripPad1_pad, stripPad1_pad]

end Roast

namespace Roast

theorem mem_of_getLast?_eq {α : Type} {l : List α} {a : α} (hl : l.getLast? = some a) :
    a ∈ l := by
  have ha : a ∈ l.getLast? := by rw [hl]; rfl
  obtain ⟨hne, rfl⟩ := List.mem_getLast?_eq_getLast ha
  exact List.getLast_mem hne

theorem padChars_replicate (l : List Nat) :
    ∃ p, p ≤ 2 ∧ padChars l = List.replicate p '=' := by
  unfold padChars
  split
  · exact ⟨2, by omega, rfl⟩
  · split
    · exact ⟨1, by omega, rfl⟩
    · exact ⟨0, by omega, rfl⟩

theorem decode_encode (l : List Nat) (h : ∀ b ∈ l, b < 256) :
    decode (encode l) = some l := by
  have hsx := toSextets_lt l h
  obtain ⟨p, hp2, hpeq⟩ := padChars_replicate l
  have hlen := toSextets_length_mod l
  have hdata : (encode l).data = (toSextets l).map b64char ++ padChars l := rfl
  have hfilter :
      ((toSextets l).map b64char ++ padChars l).filter (fun c => !(isB64Ws c)) =
        (toSextets l).map b64char ++ padChars l := by
    rw [List.filter_eq_self]
    intro c hc
    rcases List.mem_append.mp hc with hc1 | hc2
    · obtain ⟨s, hs, rfl⟩ := List.mem_map.mp hc1
      simp [b64char_not_ws s (hsx s hs)]
    · rw [hpeq] at hc2
      have : c = '=' := List.eq_of_mem_replicate hc2
      subst this
      decide
  have hmod0 : ((toSextets l).map b64char ++ padChars l).length % 4 = 0 := by
    simp only [List.length_append, List.length_map]
    exact hlen.1
  have hlastne : ((toSextets l).map b64char).getLast? ≠ some '=' := by
    intro hc
    obtain ⟨s, hs, hcs⟩ := List.mem_map.mp (mem_of_getLast?_eq hc)
    exact b64char_ne_pad s (hsx s hs) hcs
  have hstrip : stripPad ((toSextets l).map b64char ++ padChars l) =
      (toSextets l).map b64char := by
    rw [hpeq]
    exact stripPad_append _ p hp2 hlastne
  have hbodymod : ((toSextets l).map b64char).length % 4 ≠ 1 := by
    simp only [List.length_map]
    exact hlen.2
  unfold decode
  rw [hdata]
  simp only [hfilter]
  rw [if_pos hmod0, hstrip, if_neg hbodymod, sextetsOf_map _ hsx]
  show some (fromSextets (toSextets l)) = some l
  rw [fromSextets_toSextets l h]

end Roast

namespace Roast

/-! ### PCM16 round-trip lemmas -/

theorem int16sToBytes_lt (vs : List ℤ) : ∀ b ∈ int16sToBytes vs, b < 256 := by
  induction vs with
  | nil => simp [int16sToBytes]
  | cons v r ih =>
      simp only [int16sToBytes, List.mem_cons]
      have hv : (v % 65536).toNat < 65536 := by omega
      rintro b (rfl | rfl | hb)
      · omega
      · omega
      · exact ih b hb

theorem int16sToBytes_length (vs : List ℤ) :
    (int16sToBytes vs).length = 2 * vs.length := by
  induction vs with
  | nil => simp [int16sToBytes]
  | cons v r ih => simp only [int16sToBytes, List.length_cons, ih]; omega

theorem bytesToInt16s_int16sToBytes (vs : List ℤ)
    (h : ∀ v ∈ vs, -32768 ≤ v ∧ v < 32768) :
    bytesToInt16s (int16sToBytes vs) = vs := by
  induction vs with
  | nil => simp [int16sToBytes, bytesToInt16s]
  | cons v r ih =>
      have hv := h v (by simp)
      have hr := ih (fun w hw => h w (by simp [hw]))
      simp only [int16sToBytes, bytesToInt16s, hr, List.cons.injEq, and_true]
      split <;> omega

theorem jsTrunc_abs_le (x : ℚ) : |(jsTrunc x : ℚ) - x| ≤ 1 := by
  unfold jsTrunc
  rw [abs_le]
  split
  · constructor
    · have := Int.lt_floor_add_one x
      push_cast at this ⊢
      linarith
    · have := Int.floor_le x
      push_cast at this ⊢
      linarith
  · constructor
    · have := Int.le_ceil x
      push_cast at this ⊢
      linarith
    · have := Int.ceil_lt_add_one x
      push_cast at this ⊢
      linarith

theorem jsTrunc_range (x : ℚ) (h1 : -1 ≤ x) (h2 : x < 1) :
    -32768 ≤ jsTrunc (x * 32768) ∧ jsTrunc (x * 32768) < 32768 := by
  unfold jsTrunc
  have hl : (-32768 : ℚ) ≤ x * 32768 := by linarith
  have hu : x * 32768 < 32768 := by linarith
  split
  · constructor
    · have : (-32768 : ℤ) ≤ ⌊x * 32768⌋ := by
        rw [Int.le_floor]; push_cast; linarith
      exact this
    · have : ⌊x * 32768⌋ < (32768 : ℤ) := by
        rw [Int.floor_lt]; push_cast; linarith
      exact this
  · rename_i hneg
    have hc := Int.le_ceil (x * 32768)
    have hy : x * 32768 ≤ 0 := le_of_not_le hneg
    have hcu : ⌈x * 32768⌉ ≤ (0 : ℤ) := Int.ceil_le.mpr (by exact_mod_cast hy)
    constructor
    · have hq : (-32768 : ℚ) ≤ (⌈x * 32768⌉ : ℚ) := by linarith
      exact_mod_cast hq
    · omega

end Roast

namespace Roast

theorem jsToInt16_of_range (x : ℚ) (h1 : -32768 ≤ jsTrunc x) (h2 : jsTrunc x < 32768) :
    jsToInt16 x = jsTrunc x := by
  unfold jsToInt16
  omega

theorem sample_roundtrip_close (x : ℚ) (h1 : -1 ≤ x) (h2 : x < 1) :
    |(jsToInt16 (x * 32768) : ℚ) / 32768 - x| ≤ 1 / 32768 := by
  obtain ⟨hr1, hr2⟩ := jsTrunc_range x h1 h2
  rw [jsToInt16_of_range _ hr1 hr2]
  have habs := jsTrunc_abs_le (x * 32768)
  rw [abs_le] at habs ⊢
  constructor <;> [skip; skip] <;> nlinarith [habs.1, habs.2]

/-- The decoded sample list produced by round-tripping `samples`. -/
theorem inbound_createBlob (samples : List ℚ)
    (h : ∀ x ∈ samples, -1 ≤ x ∧ x < 1) :
    inboundSamples (createBlob samples).data =
      some (samples.map fun x => (jsToInt16 (x * 32768) : ℚ) / 32768) := by
  have hvs : ∀ v ∈ samples.map (fun x => jsToInt16 (x * 32768)), -32768 ≤ v ∧ v < 32768 := by
    intro v hv
    obtain ⟨x, hx, rfl⟩ := List.mem_map.mp hv
    obtain ⟨hx1, hx2⟩ := h x hx
    obtain ⟨hr1, hr2⟩ := jsTrunc_range x hx1 hx2
    rw [jsToInt16_of_range _ hr1 hr2]
    exact ⟨hr1, hr2⟩
  unfold inboundSamples createBlob
  rw [decode_encode _ (int16sToBytes_lt _)]
  show decodeAudioData (int16sToBytes (samples.map fun x => jsToInt16 (x * 32768))) = _
  unfold decodeAudioData
  rw [if_pos (by rw [int16sToBytes_length]; omega)]
  rw [bytesToInt16s_int16sToBytes _ hvs, List.map_map]
  rfl

end Roast

namespace Roast

/-! ### Scheduler lemmas -/

theorem audioStep_eq (now dur : ℚ) (st : AppState) :
    audioStep now dur st =
      { st with nextStartTime := max st.nextStartTime now + dur
                sources := ⟨max st.nextStartTime now, dur⟩ :: st.sources } := rfl

theorem runAudio_eq (msgs : List (ℚ × ℚ)) (st : AppState)
    (hn : nowsOk st.nextStartTime msgs) :
    runAudio msgs st =
      { st with nextStartTime := st.nextStartTime + (msgs.map Prod.snd).sum
                sources := (unitsFrom st.nextStartTime (msgs.map Prod.snd)).reverse ++ st.sources } := by
  induction msgs generalizing st with
  | nil => simp [runAudio, unitsFrom]
  | cons p r ih =>
      obtain ⟨now, dur⟩ := p
      obtain ⟨h1, h2⟩ := hn
      have hmax : max st.nextStartTime now = st.nextStartTime := max_eq_left h1
      show runAudio r (audioStep now dur st) = _
      rw [audioStep_eq, hmax]
      rw [ih _ (by simpa using h2)]
      simp only [List.map_cons, List.sum_cons, unitsFrom, List.reverse_cons, List.append_assoc,
        List.singleton_append]
      congr 1
      ring

theorem unitsFrom_getElem? (ds : List ℚ) (c : ℚ) (i : Nat) (d : ℚ)
    (h : ds[i]? = some d) :
    (unitsFrom c ds)[i]? = some ⟨c + (ds.take i).sum, d⟩ := by
  induction ds generalizing c i with
  | nil => simp at h
  | cons d0 r ih =>
      cases i with
      | zero =>
          simp only [List.getElem?_cons_zero, Option.some.injEq] at h
          subst h
          simp [unitsFrom]
      | succ j =>
          simp only [List.getElem?_cons_succ] at h
          have hih := ih (c + d0) j h
          simp only [unitsFrom, List.getElem?_cons_succ, hih, List.take_succ_cons,
            List.sum_cons, Option.some.injEq, SUnit.mk.injEq, and_true]
          ring

theorem unitsFrom_start_le (ds : List ℚ) (c : ℚ) (hd : ∀ d ∈ ds, 0 ≤ d) :
    ∀ u ∈ unitsFrom c ds, c ≤ u.start := by
  induction ds generalizing c with
  | nil => simp [unitsFrom]
  | cons d0 r ih =>
      intro u hu
      rw [unitsFrom] at hu
      rcases List.mem_cons.mp hu with rfl | hu2
      · simp
      · have h0 := hd d0 (by simp)
        have := ih (c + d0) (fun d hdm => hd d (by simp [hdm])) u hu2
        linarith

theorem unitsFrom_sorted (ds : List ℚ) (c : ℚ) (hd : ∀ d ∈ ds, 0 ≤ d) :
    List.Pairwise (fun u v : SUnit => u.start + u.dur ≤ v.start) (unitsFrom c ds) := by
  induction ds generalizing c with
  | nil => simp [unitsFrom]
  | cons d0 r ih =>
      simp only [unitsFrom, List.pairwise_cons]
      constructor
      · intro u hu
        exact unitsFrom_start_le r (c + d0) (fun d hdm => hd d (by simp [hdm])) u hu
      · exact ih (c + d0) (fun d hdm => hd d (by simp [hdm]))

end Roast

namespace Roast

/-! ### Transcript lemmas -/

theorem coalesce_concat (sp : Speaker) (txt : String) (l : List Transcript) (a : Transcript) :
    coalesce sp txt (l ++ [a]) =
      if a.speaker = sp then l ++ [⟨sp, txt⟩] else (l ++ [a]) ++ [⟨sp, txt⟩] := by
  simp only [coalesce, List.getLast?_concat, List.dropLast_concat]

theorem coalesce_alt (sp : Speaker) (txt : String) (ts : List Transcript)
    (h : altSpeakers ts) : altSpeakers (coalesce sp txt ts) := by
  induction ts using List.reverseRecOn with
  | nil => simp [coalesce, altSpeakers]
  | append_singleton l a ih =>
      rw [coalesce_concat]
      unfold altSpeakers at h ⊢
      rw [List.chain'_append] at h
      obtain ⟨hl, _, hrel⟩ := h
      by_cases hsp : a.speaker = sp
      · rw [if_pos hsp, List.chain'_append]
        refine ⟨hl, List.chain'_singleton _, ?_⟩
        intro x hx y hy
        simp only [List.head?_cons, Option.mem_def, Option.some.injEq] at hy
        subst hy
        have := hrel x hx a (by simp)
        simpa [hsp] using this
      · rw [if_neg hsp, List.chain'_append]
        refine ⟨List.chain'_append.mpr ⟨hl, List.chain'_singleton _, hrel⟩,
          List.chain'_singleton _, ?_⟩
        intro x hx y hy
        simp only [List.getLast?_concat, Option.mem_def, Option.some.injEq] at hx
        simp only [List.head?_cons, Option.mem_def, Option.some.injEq] at hy
        subst hx; subst hy
        simpa using hsp

end Roast

namespace Roast

/-! ### onmessage structural lemmas -/

theorem transcriptionPhase_frame (msg : LiveServerMessage) (st : AppState) :
    (transcriptionPhase msg st).nextStartTime = st.nextStartTime ∧
    (transcriptionPhase msg st).sources = st.sources ∧
    (transcriptionPhase msg st).outputAudioContext = st.outputAudioContext := by
  unfold transcriptionPhase
  split
  · exact ⟨rfl, rfl, rfl⟩
  · split
    · exact ⟨rfl, rfl, rfl⟩
    · exact ⟨rfl, rfl, rfl⟩

theorem prePhases_frame (msg : LiveServerMessage) (st : AppState) :
    (prePhases msg st).nextStartTime = st.nextStartTime ∧
    (prePhases msg st).sources = st.sources ∧
    (prePhases msg st).outputAudioContext = st.outputAudioContext ∧
    (prePhases msg st).transcripts = (transcriptionPhase msg st).transcripts := by
  unfold prePhases turnCompletePhase
  have h := transcriptionPhase_frame msg st
  split
  · exact ⟨h.1, h.2.1, h.2.2, rfl⟩
  · exact ⟨h.1, h.2.1, h.2.2, rfl⟩

theorem onmessage_transcripts (msg : LiveServerMessage) (now : ℚ) (st : AppState) :
    (onmessage msg now st).1.transcripts = (transcriptionPhase msg st).transcripts := by
  have hp := (prePhases_frame msg st).2.2.2
  unfold onmessage interruptedPhase
  split
  · split
    · exact hp
    · exact hp
  · split
    · split
      · exact hp
      · split
        · exact hp
        · exact hp
    · split
      · exact hp
      · exact hp

theorem onmessage_cursor_nonaudio (msg : LiveServerMessage) (now : ℚ) (st : AppState)
    (ha : msg.audioData = none) (hi : msg.interrupted = false) :
    (onmessage msg now st).1.nextStartTime = st.nextStartTime := by
  have hp := (prePhases_frame msg st).1
  unfold onmessage
  rw [ha]
  unfold interruptedPhase
  rw [hi]
  exact hp

theorem onmessage_inMsg (t : String) (now : ℚ) (st : AppState) :
    onmessage (inMsg t) now st =
      ({ st with currentInput := st.currentInput ++ t
                 transcripts := coalesce Speaker.user (st.currentInput ++ t) st.transcripts }, []) := rfl

theorem onmessage_outMsg (t : String) (now : ℚ) (st : AppState) :
    onmessage (outMsg t) now st =
      ({ st with currentOutput := st.currentOutput ++ t
                 transcripts := coalesce Speaker.ai (st.currentOutput ++ t) st.transcripts }, []) := rfl

/-- Either transcription branch updates the transcript by coalescing the
fragment's speaker with its accumulation buffer extended by the fragment. -/
theorem onmessage_frag_transcripts (sp : Speaker) (t : String) (now : ℚ) (st : AppState) :
    (onmessage (fragMsg sp t) now st).1.transcripts =
      coalesce sp (accBuffer sp st ++ t) st.transcripts := by
  cases sp <;> rfl

theorem accBuffer_tc (sp : Speaker) (now : ℚ) (st : AppState) :
    accBuffer sp (onmessage tcMsg now st).1 = "" := by
  cases sp <;> rfl

theorem onmessage_tcMsg (now : ℚ) (st : AppState) :
    onmessage tcMsg now st = ({ st with currentInput := "", currentOutput := "" }, []) := rfl

theorem onmessage_interruptedMsg (now : ℚ) (st : AppState) :
    onmessage interruptedMsg now st =
      ({ st with nextStartTime := 0, sources := [] }, st.sources) := rfl

theorem prePhases_audioMsg (b64 : String) (st : AppState) :
    prePhases (audioMsg b64) st = st := rfl

theorem onmessage_audio_ok (b64 : String) (smp : List ℚ) (now : ℚ) (st : AppState)
    (hb : b64 ≠ "") (hctx : st.outputAudioContext.isSome = true)
    (hs : inboundSamples b64 = some smp) :
    onmessage (audioMsg b64) now st =
      (audioStep now ((smp.length : ℚ) / 24000) st, []) := by
  unfold onmessage
  show (if b64 ≠ "" ∧ (prePhases (audioMsg b64) st).outputAudioContext.isSome = true then _
        else _) = _
  rw [prePhases_audioMsg]
  rw [if_pos ⟨hb, hctx⟩, hs]
  rfl

theorem onmessage_audio_fail (b64 : String) (now : ℚ) (st : AppState)
    (hb : b64 ≠ "") (hctx : st.outputAudioContext.isSome = true)
    (hs : inboundSamples b64 = none) :
    onmessage (audioMsg b64) now st =
      ({ st with nextStartTime := max st.nextStartTime now }, []) := by
  unfold onmessage
  show (if b64 ≠ "" ∧ (prePhases (audioMsg b64) st).outputAudioContext.isSome = true then _
        else _) = _
  rw [prePhases_audioMsg]
  rw [if_pos ⟨hb, hctx⟩, hs]

end Roast

namespace Roast

/-! ### Session lifecycle lemmas -/

theorem stopSession_cursor (st : AppState) :
    (stopSession st).1.nextStartTime = st.nextStartTime := by
  unfold stopSession
  split <;> rfl

theorem startSession_cursor (st : AppState) : (startSession st).nextStartTime = 0 := rfl

theorem onEnded_cursor (u : SUnit) (st : AppState) :
    (onEnded u st).nextStartTime = st.nextStartTime := rfl

/-! ### Claims -/

/-- C1: for audio-delta messages with decoded durations d1..dn processed from
an idle scheduler (cursor 0, empty live set), with the clock never past the
accumulated duration, the i-th scheduled unit starts at d1+...+d(i-1), each
start is computed as max(cursor, now), the cursor advances by exactly each
unit's duration, and no two scheduled units overlap. -/
theorem gapless_ordering (msgs : List (ℚ × ℚ)) (st : AppState)
    (hc : st.nextStartTime = 0) (hs : st.sources = [])
    (hd : ∀ p ∈ msgs, 0 ≤ p.2) (hn : nowsOk 0 msgs) :
    (runAudio msgs st).sources.reverse = unitsFrom 0 (msgs.map Prod.snd) ∧
    (∀ i d, (msgs.map Prod.snd)[i]? = some d →
      (unitsFrom 0 (msgs.map Prod.snd))[i]? =
        some (SUnit.mk (((msgs.map Prod.snd).take i).sum) d)) ∧
    (runAudio msgs st).nextStartTime = (msgs.map Prod.snd).sum ∧
    List.Pairwise NoOverlap (runAudio msgs st).sources ∧
    (∀ (st2 : AppState) (now dur : ℚ), audioStep now dur st2 =
      { st2 with nextStartTime := max st2.nextStartTime now + dur
                 sources := ⟨max st2.nextStartTime now, dur⟩ :: st2.sources }) := by
  have hrun := runAudio_eq msgs st (by rw [hc]; exact hn)
  have hds : ∀ d ∈ msgs.map Prod.snd, 0 ≤ d := by
    intro d hdm
    obtain ⟨p, hp, rfl⟩ := List.mem_map.mp hdm
    exact hd p hp
  refine ⟨?_, ?_, ?_, ?_, fun st2 now dur => audioStep_eq now dur st2⟩
  · rw [hrun]
    simp [hc, hs]
  · intro i d hid
    have h := unitsFrom_getElem? (msgs.map Prod.snd) 0 i d hid
    simpa using h
  · rw [hrun]
    simp [hc]
  · rw [hrun]
    show List.Pairwise NoOverlap
      ((unitsFrom st.nextStartTime (msgs.map Prod.snd)).reverse ++ st.sources)
    rw [hs, List.append_nil, List.pairwise_reverse]
    exact (unitsFrom_sorted _ _ hds).imp (fun h => Or.inr h)

/-- Witness for C1 at the concrete trace of the spec scenario (durations
0.5 s and 0.3 s, clock at 0). -/
theorem gapless_ordering_witness :
    (runAudio [((0 : ℚ), 1/2), ((0 : ℚ), 3/10)] stIdle).nextStartTime = 4/5 ∧
    (runAudio [((0 : ℚ), 1/2), ((0 : ℚ), 3/10)] stIdle).sources.reverse =
      [⟨0, 1/2⟩, ⟨1/2, 3/10⟩] := by
  have h := gapless_ordering [((0 : ℚ), 1/2), ((0 : ℚ), 3/10)] stIdle rfl rfl
    (by intro p hp
        fin_cases hp <;> norm_num)
    (by refine ⟨le_refl 0, ?_, trivial⟩
        norm_num)
  constructor
  · have h3 := h.2.2.1
    rw [h3]
    norm_num
  · rw [h.1]
    norm_num [unitsFrom]

end Roast

namespace Roast

/-- C2: an interrupted (barge-in) message stops every unit of the live set
(returned as the stop list), empties the live set, zeroes the cursor; it is
idempotent and safe on an empty set; and an audio-delta processed afterwards
is scheduled at a start time ≥ the clock's now, not at a stale cursor. -/
theorem bargein_clears (st : AppState) (now : ℚ) :
    (onmessage interruptedMsg now st).1.sources = [] ∧
    (onmessage interruptedMsg now st).1.nextStartTime = 0 ∧
    (onmessage interruptedMsg now st).2 = st.sources ∧
    (∀ now2 : ℚ, onmessage interruptedMsg now2 (onmessage interruptedMsg now st).1 =
      ((onmessage interruptedMsg now st).1, [])) ∧
    (∀ (b64 : String) (smp : List ℚ) (now2 : ℚ), 0 ≤ now2 →
      st.outputAudioContext.isSome = true → b64 ≠ "" →
      inboundSamples b64 = some smp →
      (onmessage (audioMsg b64) now2 (onmessage interruptedMsg now st).1).1.sources =
        [⟨max 0 now2, (smp.length : ℚ) / 24000⟩] ∧ now2 ≤ max 0 now2) := by
  rw [onmessage_interruptedMsg]
  refine ⟨rfl, rfl, rfl, fun now2 => ?_, ?_⟩
  · rw [onmessage_interruptedMsg]
  · intro b64 smp now2 h0 hctx hb hs
    dsimp only
    rw [onmessage_audio_ok b64 smp now2
      { st with nextStartTime := 0, sources := [] } hb hctx hs]
    exact ⟨rfl, le_max_right 0 now2⟩

/-- Witness for C2: barge-in on a state with one live source, then an
audio-delta decoding to one sample at clock time 5. -/
theorem bargein_clears_witness :
    (onmessage interruptedMsg 1 stActive).1.sources = [] ∧
    (onmessage interruptedMsg 1 stActive).2 = [⟨2, 3⟩] ∧
    (onmessage (audioMsg "AAA=") 5 (onmessage interruptedMsg 1 stActive).1).1.sources =
      [⟨5, 1/24000⟩] ∧ (5 : ℚ) ≤ max 0 5 := by
  have hsmp : inboundSamples "AAA=" = some [0] := by
    unfold inboundSamples
    rw [show decode "AAA=" = some [0, 0] from rfl]
    unfold decodeAudioData
    norm_num
    rw [show bytesToInt16s [0, 0] = [0] from rfl]
    norm_num
  have h := bargein_clears stActive 1
  have h5 := h.2.2.2.2 "AAA=" [0] 5 (by norm_num) rfl (by decide) hsmp
  refine ⟨h.1, h.2.2.1, ?_, h5.2⟩
  rw [h5.1]
  norm_num

end Roast

namespace Roast

theorem coalesce_last_eq (sp : Speaker) (txt : String) (ts : List Transcript)
    (last : Transcript) (hl : ts.getLast? = some last) (hsp : last.speaker = sp) :
    coalesce sp txt ts = ts.dropLast ++ [⟨sp, txt⟩] := by
  simp [coalesce, hl, hsp]

theorem coalesce_not_last (sp : Speaker) (txt : String) (ts : List Transcript)
    (h : ∀ last, ts.getLast? = some last → last.speaker ≠ sp) :
    coalesce sp txt ts = ts ++ [⟨sp, txt⟩] := by
  unfold coalesce
  cases hl : ts.getLast? with
  | none => rfl
  | some last => simp only [if_neg (h last hl)]

theorem str_empty_append (t : String) : "" ++ t = t := by
  cases t with
  | mk data => rfl

/-- C4 counterexample: from the reachable state `stStale` (a user fragment
"X" followed by an ai fragment "hi", no turn-complete, so the user buffer
still holds "X" and the last entry is the ai's), processing "Hel" then "lo"
appends the Turn (user, "XHello"), not (user, "Hello"): the fragments
accumulate onto the stale buffer (line 134). -/
theorem transcript_coalescing_counterexample :
    (onmessage (inMsg "lo") 0 (onmessage (inMsg "Hel") 0 stStale).1).1.transcripts =
      stStale.transcripts ++ [⟨Speaker.user, "XHello"⟩] ∧
    (onmessage (inMsg "lo") 0 (onmessage (inMsg "Hel") 0 stStale).1).1.transcripts ≠
      stStale.transcripts ++ [⟨Speaker.user, "Hello"⟩] := by
  constructor
  · rfl
  · decide

/-- C4 amended: the fragments "Hel" then "lo" from the user, with no
intervening turn-complete and a transcript whose last entry is not the
user's, produce exactly one appended Turn (user, currentInput ++ "Hello") —
(user, "Hello") exactly when the user accumulation buffer is empty; in
general, for either speaker, a fragment whose speaker matches the last
entry's replaces that entry in place with the speaker's updated accumulation
buffer, otherwise a new entry is appended; and the coalescing still applies
after an intervening turn-complete (which only resets the buffers). -/
theorem transcript_coalescing :
    (∀ (st : AppState) (now1 now2 : ℚ),
      (∀ last, st.transcripts.getLast? = some last → last.speaker ≠ Speaker.user) →
      (onmessage (inMsg "lo") now2 (onmessage (inMsg "Hel") now1 st).1).1.transcripts =
        st.transcripts ++ [⟨Speaker.user, st.currentInput ++ "Hello"⟩]) ∧
    (∀ (sp : Speaker) (st : AppState) (t : String) (now : ℚ) (last : Transcript),
      st.transcripts.getLast? = some last → last.speaker = sp →
      (onmessage (fragMsg sp t) now st).1.transcripts =
        st.transcripts.dropLast ++ [⟨sp, accBuffer sp st ++ t⟩]) ∧
    (∀ (sp : Speaker) (st : AppState) (t : String) (now : ℚ),
      (∀ last, st.transcripts.getLast? = some last → last.speaker ≠ sp) →
      (onmessage (fragMsg sp t) now st).1.transcripts =
        st.transcripts ++ [⟨sp, accBuffer sp st ++ t⟩]) ∧
    (∀ (sp : Speaker) (st : AppState) (t : String) (now1 now2 : ℚ) (last : Transcript),
      st.transcripts.getLast? = some last → last.speaker = sp →
      (onmessage (fragMsg sp t) now2 (onmessage tcMsg now1 st).1).1.transcripts =
        st.transcripts.dropLast ++ [⟨sp, t⟩]) := by
  refine ⟨?_, ?_, ?_, ?_⟩
  · intro st now1 now2 hlast
    rw [onmessage_inMsg, onmessage_inMsg]
    dsimp only
    rw [coalesce_not_last Speaker.user _ _ hlast]
    rw [coalesce_last_eq Speaker.user ((st.currentInput ++ "Hel") ++ "lo") _
      ⟨Speaker.user, st.currentInput ++ "Hel"⟩ (List.getLast?_concat _) rfl]
    rw [List.dropLast_concat, String.append_assoc]
    rfl
  · intro sp st t now last hl hsp
    rw [onmessage_frag_transcripts]
    exact coalesce_last_eq sp _ _ last hl hsp
  · intro sp st t now hlast
    rw [onmessage_frag_transcripts]
    exact coalesce_not_last sp _ _ hlast
  · intro sp st t now1 now2 last hl hsp
    rw [onmessage_frag_transcripts, accBuffer_tc, str_empty_append]
    rw [show (onmessage tcMsg now1 st).1.transcripts = st.transcripts from rfl]
    exact coalesce_last_eq sp t _ last hl hsp

/-- Witness for C4 amended: a fresh user exchange appends exactly
(user, "Hello"), and an ai fragment extends the agent's open last entry in
place using the output buffer. -/
theorem transcript_coalescing_witness :
    (onmessage (inMsg "lo") 0 (onmessage (inMsg "Hel") 0 stIdle).1).1.transcripts =
      [⟨Speaker.user, "Hello"⟩] ∧
    (onmessage (fragMsg Speaker.ai " morning") 0 stAi).1.transcripts =
      [⟨Speaker.ai, "Good morning"⟩] := by
  have h1 := transcript_coalescing.1 stIdle 0 0
    (by intro last hl; simp [stIdle] at hl)
  have h2 := transcript_coalescing.2.1 Speaker.ai stAi " morning" 0 ⟨Speaker.ai, "Good"⟩
    rfl rfl
  exact ⟨h1.trans rfl, h2.trans rfl⟩

/-- C8: a turn-complete message resets both accumulation buffers and leaves
the transcript sequence unchanged. -/
theorem turn_complete_resets (st : AppState) (now : ℚ) :
    (onmessage tcMsg now st).1.currentInput = "" ∧
    (onmessage tcMsg now st).1.currentOutput = "" ∧
    (onmessage tcMsg now st).1.transcripts = st.transcripts := by
  rw [onmessage_tcMsg]
  exact ⟨rfl, rfl, rfl⟩

theorem onmessage_alt (msg : LiveServerMessage) (now : ℚ) (st : AppState)
    (h : altSpeakers st.transcripts) :
    altSpeakers (onmessage msg now st).1.transcripts := by
  rw [onmessage_transcripts]
  unfold transcriptionPhase
  split
  · exact coalesce_alt _ _ _ h
  · split
    · exact coalesce_alt _ _ _ h
    · exact h

theorem runMsgs_alt (msgs : List (LiveServerMessage × ℚ)) (s : AppState)
    (h : altSpeakers s.transcripts) :
    altSpeakers (runMsgs msgs s).transcripts := by
  induction msgs generalizing s with
  | nil => exact h
  | cons p r ih =>
      obtain ⟨msg, now⟩ := p
      exact ih _ (onmessage_alt msg now s h)

/-- C10: no two consecutive transcript entries share a speaker: the
alternation invariant is preserved by every message, and holds for any
message trace run from the empty transcript produced at session start. -/
theorem transcript_alternation :
    (∀ (msg : LiveServerMessage) (now : ℚ) (st : AppState),
      altSpeakers st.transcripts → altSpeakers (onmessage msg now st).1.transcripts) ∧
    (∀ (st : AppState) (msgs : List (LiveServerMessage × ℚ)),
      altSpeakers (runMsgs msgs (startSession st)).transcripts) := by
  refine ⟨onmessage_alt, ?_⟩
  intro st msgs
  exact runMsgs_alt msgs (startSession st) (by simp [startSession, altSpeakers])

/-- Witness for C10 at a concrete state and message. -/
theorem transcript_alternation_witness :
    altSpeakers (onmessage tcMsg 0 stActive).1.transcripts := by
  exact transcript_alternation.1 tcMsg 0 stActive (by simp [stActive, altSpeakers])

end Roast

namespace Roast

theorem stopSession_idle (s : AppState) (h1 : s.isSessionActive = false)
    (h2 : s.sessionPromise = none) : stopSession s = (s, ([], [])) := by
  unfold stopSession
  rw [if_pos (by simp [h1, h2])]

theorem stopSession_fst_idle (s : AppState) :
    (stopSession s).1.isSessionActive = false ∧ (stopSession s).1.sessionPromise = none := by
  unfold stopSession
  split
  · rename_i hguard
    simp only [Bool.and_eq_true, Bool.not_eq_true', Option.isNone_iff_eq_none] at hguard
    exact hguard
  · exact ⟨rfl, rfl⟩

/-- C6: stopping twice in a row, or stopping a session that never finished
connecting, leaves every resource handle null and the live set empty; a stop
on an Idle state (inactive, no pending session) is a no-op that releases
nothing a second time. -/
theorem stop_idempotent (st : AppState) :
    (st.isSessionActive = true ∨ st.sessionPromise.isSome = true →
      (stopSession st).1.sessionPromise = none ∧
      (stopSession st).1.mediaStream = none ∧
      (stopSession st).1.scriptProcessor = none ∧
      (stopSession st).1.mediaStreamSource = none ∧
      (stopSession st).1.inputAudioContext = none ∧
      (stopSession st).1.outputAudioContext = none ∧
      (stopSession st).1.sources = []) ∧
    stopSession (stopSession st).1 = ((stopSession st).1, ([], [])) ∧
    (st.isSessionActive = false → st.sessionPromise = none →
      stopSession st = (st, ([], []))) := by
  refine ⟨?_, ?_, fun h1 h2 => stopSession_idle st h1 h2⟩
  · intro hact
    unfold stopSession
    rw [if_neg ?hguard]
    · exact ⟨rfl, rfl, rfl, rfl, rfl, rfl, rfl⟩
    case hguard =>
      simp only [Bool.and_eq_true, Bool.not_eq_true', Option.isNone_iff_eq_none, not_and]
      rcases hact with h | h
      · intro hc; rw [h] at hc; cases hc
      · intro _ hc; rw [hc] at h; cases h
  · obtain ⟨h1, h2⟩ := stopSession_fst_idle st
    exact stopSession_idle _ h1 h2

/-- Witness for C6 at a concrete active state. -/
theorem stop_idempotent_witness :
    (stopSession stActive).1.sessionPromise = none ∧
    (stopSession stActive).1.outputAudioContext = none ∧
    (stopSession stActive).1.sources = [] ∧
    stopSession (stopSession stActive).1 = ((stopSession stActive).1, ([], [])) ∧
    stopSession stIdle = (stIdle, ([], [])) := by
  have h := stop_idempotent stActive
  have hi := stop_idempotent stIdle
  have hset := h.1 (Or.inl rfl)
  exact ⟨hset.1, hset.2.2.2.2.2.1, hset.2.2.2.2.2.2, h.2.1, hi.2.2 rfl rfl⟩

/-- C5 counterexample: after a barge-in processed at clock time 1 the cursor
is 0 < 1, so the cursor is not always ≥ the clock; `stopSession` leaves the
cursor at 5 (no reset on session stop); `startSession` sets it to 0 (an
operation other than barge-in/stop that zeroes it). -/
theorem cursor_invariant_counterexample :
    (onmessage interruptedMsg 1 stActive).1.nextStartTime = 0 ∧
    ¬ ((1 : ℚ) ≤ (onmessage interruptedMsg 1 stActive).1.nextStartTime) ∧
    stActive.isSessionActive = true ∧
    (stopSession stActive).1.nextStartTime = 5 ∧
    (startSession stActive).nextStartTime = 0 := by
  rw [onmessage_interruptedMsg]
  refine ⟨rfl, by norm_num, rfl, ?_, rfl⟩
  rw [stopSession_cursor]
  rfl

/-- C5 amended: the cursor is ≥ the clock's now immediately after each audio
scheduling step and advances by exactly the scheduled duration from the
clamped value; it is zeroed by barge-in and by session start; session stop
and every other operation leave it unchanged. -/
theorem cursor_invariant (st : AppState) (now dur : ℚ) (msg : LiveServerMessage) (u : SUnit) :
    (audioStep now dur st).nextStartTime = max st.nextStartTime now + dur ∧
    (0 ≤ dur → now ≤ (audioStep now dur st).nextStartTime) ∧
    (onmessage interruptedMsg now st).1.nextStartTime = 0 ∧
    (startSession st).nextStartTime = 0 ∧
    (stopSession st).1.nextStartTime = st.nextStartTime ∧
    (onEnded u st).nextStartTime = st.nextStartTime ∧
    (msg.audioData = none → msg.interrupted = false →
      (onmessage msg now st).1.nextStartTime = st.nextStartTime) := by
  refine ⟨rfl, ?_, ?_, rfl, stopSession_cursor st, rfl,
    fun ha hi => onmessage_cursor_nonaudio msg now st ha hi⟩
  · intro hd
    rw [audioStep_eq]
    dsimp only
    have hm := le_max_right st.nextStartTime now
    linarith
  · rw [onmessage_interruptedMsg]

/-- Witness for C5 amended at a concrete state. -/
theorem cursor_invariant_witness :
    (audioStep 7 (1/2) stActive).nextStartTime = max stActive.nextStartTime 7 + 1/2 ∧
    (7 : ℚ) ≤ (audioStep 7 (1/2) stActive).nextStartTime ∧
    (onmessage tcMsg 3 stActive).1.nextStartTime = stActive.nextStartTime := by
  have h := cursor_invariant stActive 7 (1/2) tcMsg ⟨0, 0⟩
  exact ⟨h.1, h.2.1 (by norm_num), h.2.2.2.2.2.2 rfl rfl⟩

/-- C7 counterexample: a malformed audio payload ("A") processed at clock
time 7 changes the state: the cursor is clamped to max(cursor, now) = 7
before the decode throws, so the state is not unchanged on the error. -/
theorem decode_failure_counterexample :
    (onmessage (audioMsg "A") 7 stActive).1.nextStartTime = 7 ∧
    stActive.nextStartTime = 5 ∧
    (onmessage (audioMsg "A") 7 stActive).1 ≠ stActive := by
  have hfail : inboundSamples "A" = none := rfl
  have h := onmessage_audio_fail "A" 7 stActive (by decide) rfl hfail
  have hmax : max (5 : ℚ) 7 = 7 := max_eq_right (by norm_num)
  have hcur : (onmessage (audioMsg "A") 7 stActive).1.nextStartTime = 7 := by
    rw [h]
    show max (5 : ℚ) 7 = 7
    exact hmax
  refine ⟨hcur, rfl, ?_⟩
  intro hc
  rw [hc] at hcur
  rw [show stActive.nextStartTime = 5 from rfl] at hcur
  norm_num at hcur

/-- C7 amended: on a decode failure only that frame is dropped: no unit is
added to the live set, the cursor is not advanced by any duration (it is only
clamped to max(cursor, now) by the pre-decode step of line 152), the rest of
that message's handler is skipped, and subsequent messages are processed
normally from that state. -/
theorem decode_failure_drops_frame (st : AppState) (msg : LiveServerMessage)
    (now : ℚ) (b64 : String) (ha : msg.audioData = some b64) (hb : b64 ≠ "")
    (hctx : (prePhases msg st).outputAudioContext.isSome = true)
    (hs : inboundSamples b64 = none) :
    onmessage msg now st =
      ({ prePhases msg st with
          nextStartTime := max (prePhases msg st).nextStartTime now }, []) ∧
    (onmessage msg now st).1.sources = st.sources ∧
    (onmessage msg now st).1.nextStartTime = max st.nextStartTime now := by
  have hpf := prePhases_frame msg st
  have heq : onmessage msg now st =
      ({ prePhases msg st with
          nextStartTime := max (prePhases msg st).nextStartTime now }, []) := by
    unfold onmessage
    simp only [ha]
    rw [if_pos ⟨hb, hctx⟩, hs]
  refine ⟨heq, ?_, ?_⟩
  · rw [heq]
    exact hpf.2.1
  · rw [heq]
    show max (prePhases msg st).nextStartTime now = max st.nextStartTime now
    rw [hpf.1]

/-- Witness for C7 amended at the concrete malformed payload "A". -/
theorem decode_failure_drops_frame_witness :
    (onmessage (audioMsg "A") 7 stActive).1.sources = stActive.sources ∧
    (onmessage (audioMsg "A") 7 stActive).1.nextStartTime = max stActive.nextStartTime 7 := by
  have h := decode_failure_drops_frame stActive (audioMsg "A") 7 "A" rfl (by decide) rfl rfl
  exact ⟨h.2.1, h.2.2⟩

/-- C9: the program's decode is a left inverse of its encode on every byte
list (values 0..255, any length including zero). -/
theorem b64_roundtrip (l : List Nat) (h : ∀ b ∈ l, b < 256) :
    decode (encode l) = some l := decode_encode l h

/-- Witness for C9 on a concrete byte list. -/
theorem b64_roundtrip_witness : decode (encode [0, 255, 77]) = some [0, 255, 77] :=
  b64_roundtrip [0, 255, 77] (by decide)

/-- C3 counterexample: the in-range sample 1.0 wraps to -32768 in the Int16
store and round-trips to -1.0, an error of 2 > 1/32768. -/
theorem roundtrip_quantization_counterexample :
    inboundSamples (createBlob [1]).data = some [-1] ∧
    ¬ (|(-1 : ℚ) - 1| ≤ 1 / 32768) := by
  constructor
  · have ht : jsTrunc ((1 : ℚ) * 32768) = 32768 := by
      unfold jsTrunc
      rw [if_pos (by norm_num), show ((1 : ℚ) * 32768) = ((32768 : ℤ) : ℚ) by norm_num,
        Int.floor_intCast]
    have h1 : jsToInt16 ((1 : ℚ) * 32768) = -32768 := by
      unfold jsToInt16
      rw [ht]
      decide
    have h2 : createBlob [1] = { data := encode [0, 128], mimeType := "audio/pcm;rate=16000" } := by
      unfold createBlob
      rw [show ([1] : List ℚ).map (fun x => jsToInt16 (x * 32768)) =
        [jsToInt16 ((1 : ℚ) * 32768)] from rfl, h1]
      rfl
    rw [h2]
    show inboundSamples (encode [0, 128]) = some [-1]
    unfold inboundSamples
    rw [decode_encode [0, 128] (by decide)]
    show decodeAudioData [0, 128] = some [-1]
    unfold decodeAudioData
    rw [if_pos (by decide)]
    rw [show bytesToInt16s [0, 128] = [-32768] from rfl]
    norm_num
  · norm_num

/-- C3 amended: for samples in [-1, 1) the capture-encode / inbound-decode
round trip succeeds and reproduces each sample to within 1/32768 (at exactly
1 the Int16 store wraps; see the counterexample). -/
theorem roundtrip_quantization (samples : List ℚ)
    (h : ∀ x ∈ samples, -1 ≤ x ∧ x < 1) :
    inboundSamples (createBlob samples).data =
      some (samples.map fun x => (jsToInt16 (x * 32768) : ℚ) / 32768) ∧
    ∀ x ∈ samples, |(jsToInt16 (x * 32768) : ℚ) / 32768 - x| ≤ 1 / 32768 := by
  refine ⟨inbound_createBlob samples h, ?_⟩
  intro x hx
  exact sample_roundtrip_close x (h x hx).1 (h x hx).2

/-- Witness for C3 amended on the sample 1/2. -/
theorem roundtrip_quantization_witness :
    inboundSamples (createBlob [(1 : ℚ)/2]).data =
      some ([(1 : ℚ)/2].map fun x => (jsToInt16 (x * 32768) : ℚ) / 32768) ∧
    |(jsToInt16 ((1 : ℚ)/2 * 32768) : ℚ) / 32768 - 1/2| ≤ 1/32768 := by
  have h := roundtrip_quantization [(1 : ℚ)/2]
    (by intro x hx; fin_cases hx; constructor <;> norm_num)
  exact ⟨h.1, h.2 ((1 : ℚ)/2) (by simp)⟩

end Roast
